import Mathlib

/-!
# Cratchit: the command interpreter of `src/main.cpp`

A shallow embedding of the program and the properties proved about it.

* A `std::string` (and a `std::string_view`) is the list of its characters, `Str`.
* `std::map<std::string,std::string>` is a sequence of entries kept in strictly
  ascending key order, `Environment`.
* Streams (`std::istringstream`, `std::ifstream`, `std::cin`, `std::cout`) are
  explicit values that the operations take and return.
-/

namespace CratchitSpec

/-- A `std::string`, or a `std::string_view` over one: its characters in order. -/
abbrev Str := List Char

/-! ## namespace `parse` -/

namespace parse

/-- The member `delimeters` of `ParseWord`, the text `" ,.;:="`. -/
def delimeters : Str := [' ', ',', '.', ';', ':', '=']

/-- The test `delimeters.find(c) != std::string::npos`. -/
def is_delimeter (c : Char) : Bool := delimeters.contains c

/-- First loop of `ParseWord::operator()`: `iter` advances while it points at a
delimiter; the result is the range `[iter, in.end())` where the loop stops. -/
def skip_delimeters : Str → Str
  | [] => []
  | c :: rest => if is_delimeter c then skip_delimeters rest else c :: rest

/-- Second loop of `ParseWord::operator()`: `p += *iter` until `iter` points at a
delimiter or reaches the end; the result is `p` and the range `[iter, in.end())`. -/
def accumulate_word : Str → Str → Str × Str
  | p, [] => (p, [])
  | p, c :: rest =>
    if is_delimeter c then (p, c :: rest) else accumulate_word (p ++ [c]) rest

/-- The call `ParseWord::operator()(in)`: `none` is the empty `ParseResult`, and
`some (p, rest)` the pair of the word and the view `In{iter,in.end()}`. -/
def ParseWord (inp : Str) : Option (Str × Str) :=
  let iter := skip_delimeters inp
  let (p, iter) := accumulate_word [] iter
  if p.length > 0 then some (p, iter) else none

/-- The function template `parse(p, in)`, which applies the parser. -/
def parse {P : Type} (p : Str → Option (P × Str)) (inp : Str) : Option (P × Str) :=
  p inp

end parse

/-! ## Model, messages and the updater -/

/-- The `struct Model`, with its default member initialisers. -/
structure Model where
  prompt : Str := []
  quit : Bool := false
deriving DecidableEq, Repr

/-- The alias `using Command = std::string`. -/
abbrev Command := Str

/-- The variant `std::variant<Nop,Quit,Command>`. -/
inductive Msg where
  | Nop : Msg
  | Quit : Msg
  | Command : Command → Msg
deriving DecidableEq, Repr

/-- The alias `using Ux = std::vector<std::string>`. -/
abbrev Ux := List Str

namespace Updater

/-- The overload `Updater::operator()(Command const&)`. -/
def on_command (model : Model) (_command : Command) : Model :=
  let result := model
  let result := { result with
    prompt := result.prompt ++ "\nUpdate for command not yet implemented".toList }
  let result := { result with prompt := result.prompt ++ "\n>".toList }
  result

/-- The overload `Updater::operator()(Quit const&)`. -/
def on_quit (model : Model) : Model :=
  let result := model
  let result := { result with prompt := result.prompt ++ "\nBy for now :)".toList }
  let result := { result with quit := true }
  result

/-- The overload `Updater::operator()(Nop const&)`. -/
def on_nop (model : Model) : Model := model

end Updater

/-- The member `Cratchit::update`: `std::visit` of an `Updater` bound to `model`
over the alternative held by `msg`. -/
def update (msg : Msg) (model : Model) : Model :=
  match msg with
  | Msg.Nop => Updater.on_nop model
  | Msg.Quit => Updater.on_quit model
  | Msg.Command command => Updater.on_command model command

/-- The member `Cratchit::view`. -/
def view (model : Model) : Ux :=
  let result : Ux := []
  result ++ [model.prompt]

/-- The member `REPL::to_msg`. -/
def to_msg (user_input : Command) : Msg :=
  if user_input = "quit".toList ∨ user_input = "q".toList then Msg.Quit
  else Msg.Command user_input

/-! ## The environment and its text form -/

/-- The alias `using EnvironmentValue = std::string`. -/
abbrev EnvironmentValue := Str

/-- The call `std::map::insert` on the entries of a map, which are kept in
ascending key order: the entry goes to its place in the order, and nothing changes
when an entry with an equivalent key (neither key less than the other) is there. -/
def map_insert : List (Str × EnvironmentValue) → Str × EnvironmentValue →
    List (Str × EnvironmentValue)
  | [], kv => [kv]
  | e :: rest, kv =>
    if kv.1 < e.1 then kv :: e :: rest
    else if e.1 < kv.1 then e :: map_insert rest kv
    else e :: rest

theorem map_insert_head_bound (l : List (Str × EnvironmentValue))
    (kv b : Str × EnvironmentValue) (hb : b.1 < kv.1) (hl : ∀ x ∈ l, b.1 < x.1) :
    ∀ x ∈ map_insert l kv, b.1 < x.1 := by
  induction l with
  | nil =>
    intro x hx
    simp only [map_insert, List.mem_singleton] at hx
    rw [hx]
    exact hb
  | cons e rest ih =>
    intro x hx
    simp only [map_insert] at hx
    split_ifs at hx with h1 h2
    · rcases List.mem_cons.1 hx with rfl | hx2
      · exact hb
      · exact hl x hx2
    · rcases List.mem_cons.1 hx with rfl | hx2
      · exact hl x (List.mem_cons_self _ _)
      · exact ih (fun y hy => hl y (List.mem_cons_of_mem _ hy)) x hx2
    · exact hl x hx

theorem map_insert_ordered (l : List (Str × EnvironmentValue)) (kv : Str × EnvironmentValue)
    (h : l.Pairwise (fun a b => a.1 < b.1)) :
    (map_insert l kv).Pairwise (fun a b => a.1 < b.1) := by
  induction l with
  | nil => simp [map_insert]
  | cons e rest ih =>
    rw [List.pairwise_cons] at h
    simp only [map_insert]
    split_ifs with h1 h2
    · refine List.Pairwise.cons ?_ (List.Pairwise.cons h.1 h.2)
      intro x hx
      rcases List.mem_cons.1 hx with rfl | hx2
      · exact h1
      · exact lt_trans h1 (h.1 x hx2)
    · exact List.Pairwise.cons (map_insert_head_bound rest kv e h2 h.1) (ih h.2)
    · exact List.Pairwise.cons h.1 h.2

/-- The alias `using Environment = std::map<std::string,EnvironmentValue>`: the
entries in iteration order, which is strictly ascending in the key. -/
structure Environment where
  entries : List (Str × EnvironmentValue)
  ordered : entries.Pairwise (fun a b => a.1 < b.1)

namespace Environment

/-- The default-constructed map `Environment result{}`. -/
def empty : Environment := ⟨[], List.Pairwise.nil⟩

/-- The member `insert` of the map. -/
def insert (e : Environment) (kv : Str × EnvironmentValue) : Environment :=
  ⟨map_insert e.entries kv, map_insert_ordered e.entries kv e.ordered⟩

end Environment

/-- The overload `to_string(EnvironmentValue const&)`. -/
def to_string_value (ev : EnvironmentValue) : Str := ev

/-- The function `to_value`. -/
def to_value (s : Str) : EnvironmentValue := s

/-- The loop of `os << std::quoted(s)` over the characters of `s`: the escape
character `\` is written before a `"` or a `\`, then the character itself. -/
def put_quoted_chars : Str → Str → Str
  | os, [] => os
  | os, c :: rest =>
    let os := if c = '"' ∨ c = '\\' then os ++ ['\\'] else os
    put_quoted_chars (os ++ [c]) rest

/-- The insertion `os << std::quoted(s)` with the default delimiter `"` and escape
`\`: the text of `os` after it. -/
def put_quoted (os : Str) (s : Str) : Str :=
  let os := os ++ ['"']
  let os := put_quoted_chars os s
  os ++ ['"']

/-- The overload `to_string(Environment::value_type const&)`. -/
def to_string (entry : Str × EnvironmentValue) : Str :=
  let os : Str := []
  let os := put_quoted os entry.1
  let os := os ++ ":".toList
  let os := put_quoted os (to_string_value entry.2)
  os

/-- The loop of `Cratchit::environment_to_file` from the iterator position
`iter`: `at_begin` is the test `iter == environment.begin()`, `out` the text
written so far. -/
def environment_to_file_from : Bool → List (Str × EnvironmentValue) → Str → Str
  | _, [], out => out
  | true, entry :: rest, out => environment_to_file_from false rest (out ++ to_string entry)
  | false, entry :: rest, out =>
    environment_to_file_from false rest (out ++ "\n".toList ++ to_string entry)

/-- The member `Cratchit::environment_to_file`: the text written to the file for
the member `environment`. -/
def environment_to_file (environment : Environment) : Str :=
  environment_to_file_from true environment.entries []

/-! ## Input streams -/

/-- An input stream over text (`std::istringstream`): the characters not yet
read, the state bits `eofbit` and `failbit`, and the format flag `skipws`. -/
structure istream where
  buf : Str
  eofbit : Bool := false
  failbit : Bool := false
  skipws : Bool := true
deriving DecidableEq, Repr

/-- The member `good()`. -/
def istream.good (s : istream) : Bool := !s.eofbit && !s.failbit

/-- The classification `std::isspace` in the default locale. -/
def isspace (c : Char) : Bool :=
  c = ' ' ∨ c = '\t' ∨ c = '\n' ∨ c = Char.ofNat 11 ∨ c = Char.ofNat 12 ∨ c = '\r'

/-- The extraction `in >> c` of one `char`: a stream that is not good fails and
leaves `c`; otherwise white space is skipped when `skipws` is set, and the next
character is taken, or `eofbit` and `failbit` are set when there is none. -/
def extract_char (s : istream) (c : Char) : istream × Char :=
  if !s.good then ({ s with failbit := true }, c)
  else
    match (if s.skipws then s.buf.dropWhile isspace else s.buf) with
    | [] => ({ s with buf := [], eofbit := true, failbit := true }, c)
    | x :: rest => ({ s with buf := rest }, x)

/-- The extraction `in >> str` of a `std::string`: after the same entry steps as
`extract_char`, `str` is cleared and takes the characters up to the next white
space or the end; `eofbit` is set when the end is reached and `failbit` when no
character was taken. -/
def extract_string (s : istream) (str : Str) : istream × Str :=
  if !s.good then ({ s with failbit := true }, str)
  else
    let buf := if s.skipws then s.buf.dropWhile isspace else s.buf
    if s.skipws && buf.isEmpty then
      ({ s with buf := [], eofbit := true, failbit := true }, str)
    else
      let word := buf.takeWhile (fun c => !isspace c)
      let rest := buf.dropWhile (fun c => !isspace c)
      ({ s with buf := rest, eofbit := rest.isEmpty, failbit := word.isEmpty }, word)

/-- The loop of `in >> std::quoted(str)` after the opening `"`, with `skipws`
off: characters are appended to `str` up to the closing `"`; after a `\` the next
character is appended whatever it is. The result is the unread text, whether the
end of the text was hit before the closing `"`, and `str`. -/
def get_quoted_chars : Str → Str → (Str × Bool) × Str
  | [], str => (([], true), str)
  | c :: rest, str =>
    if c = '\\' then
      match rest with
      | [] => (([], true), str)
      | c2 :: rest2 => get_quoted_chars rest2 (str ++ [c2])
    else if c = '"' then ((rest, false), str)
    else get_quoted_chars rest (str ++ [c])

/-- The extraction `in >> std::quoted(str)` with the default delimiter `"` and
escape `\`: one character is extracted; when the stream is no longer good `str`
is left alone; when the character is not `"` it is put back and `in >> str` runs;
otherwise `str` is cleared and the quoted text is read with `skipws` off. -/
def extract_quoted (s : istream) (str : Str) : istream × Str :=
  let (s1, c) := extract_char s (Char.ofNat 0)
  if !s1.good then (s1, str)
  else if c ≠ '"' then extract_string { s1 with buf := c :: s1.buf } str
  else
    let ((buf, hit_end), str) := get_quoted_chars s1.buf []
    ({ s1 with buf := buf, eofbit := hit_end, failbit := hit_end }, str)

/-- The lines that `while (std::getline(in,line))` visits on a stream over the
given text: each call takes the characters up to the next newline, which is
dropped, or up to the end; the call that can take nothing ends the loop. -/
def getlines : Str → List Str
  | [] => []
  | c :: cs =>
    if c = '\n' then [] :: getlines cs
    else
      match getlines cs with
      | [] => [[c]]
      | line :: lines => (c :: line) :: lines

/-! ## class `Cratchit` -/

/-- The member `Cratchit::is_value_line`. -/
def is_value_line (line : Str) : Bool :=
  if line.length = 0 then false else line.take 2 != "//".toList

/-- The body of the `if (is_value_line(line))` block of
`Cratchit::environment_from_file`: `name`, `colon` and `value` are extracted from
a stream over the line, and the entry is inserted whatever the stream state. -/
def read_value_line (environment : Environment) (line : Str) : Environment :=
  let in0 : istream := { buf := line }
  let name : Str := []
  let value : Str := []
  let colon : Char := Char.ofNat 0
  let (in1, name) := extract_quoted in0 name
  let (in2, _) := extract_char in1 colon
  let (_, value) := extract_quoted in2 value
  environment.insert (name, to_value value)

/-- The member `Cratchit::environment_from_file`. The arguments are the content
of the member `environment` when the call starts and the text of the file at `p`
(`none` when it cannot be opened, so that the first `std::getline` fails). The
result is the returned map `result` and the content of the member `environment`
when the call returns, for a call on a constructed object; for the call that
initialises the member, see `Cratchit.new`. -/
def environment_from_file (environment : Environment) (file : Option Str) :
    Environment × Environment :=
  let result : Environment := Environment.empty
  let environment := environment.insert ("Test Entry".toList, "Test Value".toList)
  let environment := environment.insert ("Test2".toList, "4711".toList)
  let text : Str := match file with
    | none => []
    | some t => t
  let environment := (getlines text).foldl
    (fun environment line =>
      if is_value_line line then read_value_line environment line else environment)
    environment
  (result, environment)

/-- The extractions `in >> std::quoted(name) >> colon >> std::quoted(value)` of
`Cratchit::environment_from_file` on a stream over the line: the pair
`{name,to_value(value)}` that is then inserted. -/
def extract_entry (line : Str) : Str × EnvironmentValue :=
  let in0 : istream := { buf := line }
  let name : Str := []
  let value : Str := []
  let colon : Char := Char.ofNat 0
  let (in1, name) := extract_quoted in0 name
  let (in2, _) := extract_char in1 colon
  let (_, value) := extract_quoted in2 value
  (name, to_value value)

/-- The body of the loop `while (std::getline(in,line))` of
`Cratchit::environment_from_file`, for one line. -/
def load_line (environment : Environment) (line : Str) : Environment :=
  if is_value_line line then read_value_line environment line else environment

/-- The private members of `class Cratchit`. -/
structure Cratchit where
  cratchit_file_path : Str
  environment : Environment

namespace Cratchit

/-- The constructor `Cratchit(p)`. The call `environment_from_file(p)` is the
initialiser of the member `environment`, so the map `result` that the call returns
is constructed, empty, in the member itself: the entries that the call inserts
into the member are the entries of the map it returns, and the member holds the
table that the call filled from an empty one. -/
def new (p : Str) (file : Option Str) : Cratchit :=
  { cratchit_file_path := p
    environment := (environment_from_file Environment.empty file).2 }

/-- The member `Cratchit::init`. -/
def init (c : Cratchit) : Model :=
  let result : Model := {}
  let result := { result with prompt := result.prompt ++ "\nInit from ".toList }
  let result := { result with prompt := result.prompt ++ c.cratchit_file_path }
  result

end Cratchit

/-! ## class `REPL` -/

/-- The console: the lines that `std::cin` still holds, the strings written to
`std::cout` (one per `<<`, oldest first), and the number of `std::getline` calls
made on `std::cin`. -/
structure Console where
  cin : List Str
  cout : List Str := []
  reads : Nat := 0

/-- The private members of `class REPL`; `in_` is the deque `in`, front first. -/
structure REPL where
  model : Model
  cratchit : Cratchit
  in_ : List Msg

namespace REPL

/-- The constructor `REPL(environment_file_path, command)`. -/
def new (environment_file_path : Str) (command : Command) (file : Option Str) : REPL :=
  let cratchit := Cratchit.new environment_file_path file
  { model := cratchit.init, cratchit := cratchit, in_ := [] ++ [Msg.Command command] }

/-- The call `std::getline(std::cin, user_input)`: the next line, or `user_input`
as it was (empty) when the input has ended. -/
def getline_cin (cin : List Str) (user_input : Command) : Command × List Str :=
  match cin with
  | [] => (user_input, [])
  | line :: rest => (line, rest)

/-- The member `REPL::operator++`: the returned flag, the object and the console
after the call. -/
def increment (r : REPL) (io : Console) : Bool × REPL × Console :=
  let msg : Msg := Msg.Nop
  let (msg, in_) :=
    if r.in_.length > 0 then (r.in_.getLastD msg, r.in_.dropLast) else (msg, r.in_)
  let model := update msg r.model
  let ux := view model
  let cout := ux.foldl (fun out row => out ++ [row]) io.cout
  if model.quit then
    (false, { r with model := model, in_ := in_ }, { io with cout := cout })
  else
    let user_input : Command := []
    let (user_input, cin) := getline_cin io.cin user_input
    (true, { r with model := model, in_ := in_ ++ [to_msg user_input] },
      { cin := cin, cout := cout, reads := io.reads + 1 })

/-- The loop `while (++repl);` of `main`, run for at most `fuel` iterations:
`none` when the loop is still running after them, otherwise the number of
iterations made, the object and the console at the end. -/
def run : Nat → REPL → Console → Option (Nat × REPL × Console)
  | 0, _, _ => none
  | fuel + 1, r, io =>
    match increment r io with
    | (false, r1, io1) => some (1, r1, io1)
    | (true, r1, io1) =>
      match run fuel r1 io1 with
      | none => none
      | some (n, r2, io2) => some (n + 1, r2, io2)

/-- The first `k` iterations of the loop `while (++repl);`, or fewer when
`operator++` returns false before: the flag that the last call returned (true
when no call was made), the object and the console after them. -/
def iterate : Nat → REPL → Console → Bool × REPL × Console
  | 0, r, io => (true, r, io)
  | k + 1, r, io =>
    match increment r io with
    | (false, r1, io1) => (false, r1, io1)
    | (true, r1, io1) => iterate k r1 io1

end REPL

/-! ## Texts and formats the specification names -/

/-- The text that the `Command` overload of the updater appends: the notice and
the prompt marker. -/
def notice : Str := "\nUpdate for command not yet implemented".toList ++ "\n>".toList

/-- The text that the `Quit` overload of the updater appends. -/
def farewell : Str := "\nBy for now :)".toList

/-- The escaping the specification describes for a field of the environment file:
every `"` and every `\` of the field is preceded by a `\`. -/
def spec_escape (field : Str) : Str :=
  field.flatMap (fun c => if c = '"' ∨ c = '\\' then ['\\', c] else [c])

/-- The line the specification describes for one entry: `"<key>":"<value>"`, both
fields escaped and enclosed in double quotes. -/
def spec_entry_line (entry : Str × EnvironmentValue) : Str :=
  ['"'] ++ spec_escape entry.1 ++ ['"'] ++ [':'] ++ ['"'] ++ spec_escape entry.2 ++ ['"']

/-- The file text the specification describes: the entry lines joined by single
newlines, with none before the first or after the last. -/
def spec_environment_text (entries : List (Str × EnvironmentValue)) : Str :=
  List.intercalate ['\n'] (entries.map spec_entry_line)

/-- The classification `std::iscntrl` in the default locale: the codes below 32
(the newline among them) and 127. -/
def iscntrl (c : Char) : Bool := c.toNat < 32 || c.toNat = 127

/-- An environment that holds the two seeded entries and an entry with spaces,
double quotes and a backslash in its fields. -/
def sample_environment : Environment :=
  ((Environment.empty.insert ("Test Entry".toList, "Test Value".toList)).insert
    ("Test2".toList, "4711".toList)).insert ("say \"hi\"".toList, "C:\\dir x".toList)

/-- An environment with the single entry `a` to `b`. -/
def single_environment : Environment :=
  Environment.empty.insert ("a".toList, "b".toList)

/-- The call `parse(ParseWord{}, in)` made again and again on the remainder that
the call before returned, until a call returns no result: the tokens in the order
they were returned, or `none` when `fuel` calls did not reach the end. -/
def parse_words : Nat → Str → Option (List Str)
  | 0, _ => none
  | fuel + 1, inp =>
    match parse.parse parse.ParseWord inp with
    | none => some []
    | some (token, remainder) =>
      match parse_words fuel remainder with
      | none => none
      | some tokens => some (token :: tokens)

/-- The maximal delimiter-free substrings of a text, in order: the text is cut at
every delimiter and the empty pieces are dropped. -/
def spec_words (text : Str) : List Str :=
  (text.splitOnP parse.is_delimeter).filter (fun piece => !piece.isEmpty)

/-! ## Theorems -/

namespace parse

theorem skip_delimeters_eq_dropWhile (s : Str) :
    skip_delimeters s = s.dropWhile is_delimeter := by
  induction s with
  | nil => rfl
  | cons c rest ih =>
    by_cases h : is_delimeter c = true
    · simp [skip_delimeters, List.dropWhile, h, ih]
    · simp [skip_delimeters, List.dropWhile, h]

theorem accumulate_word_eq (p s : Str) :
    accumulate_word p s
      = (p ++ s.takeWhile (fun c => !is_delimeter c),
         s.dropWhile (fun c => !is_delimeter c)) := by
  induction s generalizing p with
  | nil => simp [accumulate_word]
  | cons c rest ih =>
    by_cases h : is_delimeter c = true
    · simp [accumulate_word, List.takeWhile, List.dropWhile, h]
    · simp [accumulate_word, List.takeWhile, List.dropWhile, h, ih]

/-- `ParseWord` in closed form: drop the leading delimiters, then split at the
next delimiter. -/
theorem ParseWord_eq (s : Str) :
    ParseWord s =
      if ((s.dropWhile is_delimeter).takeWhile (fun c => !is_delimeter c)).length > 0 then
        some ((s.dropWhile is_delimeter).takeWhile (fun c => !is_delimeter c),
              (s.dropWhile is_delimeter).dropWhile (fun c => !is_delimeter c))
      else none := by
  simp [ParseWord, skip_delimeters_eq_dropWhile, accumulate_word_eq]

theorem is_delimeter_iff (c : Char) :
    is_delimeter c = true ↔
      (c = ' ' ∨ c = ',' ∨ c = '.' ∨ c = ';' ∨ c = ':' ∨ c = '=') := by
  simp [is_delimeter, delimeters]

theorem ParseWord_all_delimeters (s : Str) (h : ∀ c ∈ s, is_delimeter c = true) :
    ParseWord s = none := by
  have hd : s.dropWhile is_delimeter = [] := by
    rw [List.dropWhile_eq_nil_iff]
    exact h
  simp [ParseWord_eq, hd]

/-- What `ParseWord` returns on an input that holds a character outside the
delimiter set. -/
theorem ParseWord_some (s : Str) (h : ∃ c ∈ s, is_delimeter c = false) :
    ∃ token remainder,
      ParseWord s = some (token, remainder) ∧
      s = s.takeWhile is_delimeter ++ token ++ remainder ∧
      token ≠ [] ∧
      (∀ c ∈ token, is_delimeter c = false) ∧
      (remainder = [] ∨ ∃ c rest, remainder = c :: rest ∧ is_delimeter c = true) := by
  obtain ⟨c0, hc0, hc0d⟩ := h
  have hne : s.dropWhile is_delimeter ≠ [] := by
    intro hnil
    rw [List.dropWhile_eq_nil_iff] at hnil
    have := hnil c0 hc0
    simp [hc0d] at this
  obtain ⟨x, r, hr⟩ := List.exists_cons_of_ne_nil hne
  have hx : is_delimeter x = false := by
    have := List.head_dropWhile_not is_delimeter s hne
    simpa [hr] using this
  refine ⟨(s.dropWhile is_delimeter).takeWhile (fun c => !is_delimeter c),
    (s.dropWhile is_delimeter).dropWhile (fun c => !is_delimeter c), ?_, ?_, ?_, ?_, ?_⟩
  · rw [ParseWord_eq, hr]
    simp [List.takeWhile, hx]
  · rw [List.append_assoc, List.takeWhile_append_dropWhile, List.takeWhile_append_dropWhile]
  · rw [hr]
    simp [List.takeWhile, hx]
  · intro c hc
    have := List.mem_takeWhile_imp hc
    simpa using this
  · by_cases hrem : (s.dropWhile is_delimeter).dropWhile (fun c => !is_delimeter c) = []
    · exact Or.inl hrem
    · right
      obtain ⟨y, r2, hr2⟩ := List.exists_cons_of_ne_nil hrem
      refine ⟨y, r2, hr2, ?_⟩
      have := List.head_dropWhile_not (fun c => !is_delimeter c)
        (s.dropWhile is_delimeter) hrem
      simpa [hr2] using this

/-- C2. `ParseWord` returns no result exactly when every character of the input
is one of space, comma, period, semicolon, colon, equals (so also on the empty
input), and a result it returns never carries an empty token. -/
theorem ParseWord_none_iff (s : Str) :
    (ParseWord s = none ↔
      ∀ c ∈ s, c = ' ' ∨ c = ',' ∨ c = '.' ∨ c = ';' ∨ c = ':' ∨ c = '=') ∧
    ∀ remainder, ParseWord s ≠ some ([], remainder) := by
  constructor
  · constructor
    · intro hnone c hc
      rw [← is_delimeter_iff]
      by_contra hcd
      obtain ⟨t, r, hs, -⟩ := ParseWord_some s ⟨c, hc, by simpa using hcd⟩
      simp [hs] at hnone
    · intro hall
      exact ParseWord_all_delimeters s (fun c hc => (is_delimeter_iff c).2 (hall c hc))
  · intro remainder hsome
    by_cases hall : ∀ c ∈ s, is_delimeter c = true
    · simp [ParseWord_all_delimeters s hall] at hsome
    · push_neg at hall
      obtain ⟨c, hc, hcd⟩ := hall
      obtain ⟨t, r, hs, -, hne, -⟩ := ParseWord_some s ⟨c, hc, by simpa using hcd⟩
      rw [hs] at hsome
      simp only [Option.some.injEq, Prod.mk.injEq] at hsome
      exact hne hsome.1

/-- C3. On an input that holds a character outside the delimiter set,
`ParseWord` returns `(token, remainder)` with
`input = d ++ token ++ remainder`, where `d` is the longest leading run of
delimiters, `token` is non-empty and free of delimiters, and `remainder` is empty
or starts with a delimiter. -/
theorem ParseWord_splits (s : Str) (h : ∃ c ∈ s, is_delimeter c = false) :
    ∃ token remainder,
      ParseWord s = some (token, remainder) ∧
      s = s.takeWhile is_delimeter ++ token ++ remainder ∧
      token ≠ [] ∧
      (∀ c ∈ token, is_delimeter c = false) ∧
      (remainder = [] ∨ ∃ c rest, remainder = c :: rest ∧ is_delimeter c = true) :=
  ParseWord_some s h

/-- C3 at the inputs of the specification: `"  a,b"` gives `("a", ",b")` and
`"=x"` gives `("x", "")`. -/
theorem ParseWord_splits_witness :
    (∃ c ∈ "  a,b".toList, is_delimeter c = false) ∧
    ParseWord "  a,b".toList = some ("a".toList, ",b".toList) ∧
    ParseWord "=x".toList = some ("x".toList, []) ∧
    ∃ token remainder,
      ParseWord "  a,b".toList = some (token, remainder) ∧
      "  a,b".toList = ("  a,b".toList).takeWhile is_delimeter ++ token ++ remainder ∧
      token ≠ [] ∧
      (∀ c ∈ token, is_delimeter c = false) ∧
      (remainder = [] ∨ ∃ c rest, remainder = c :: rest ∧ is_delimeter c = true) :=
  ⟨⟨'a', by decide, by decide⟩, by decide, by decide,
    ParseWord_splits "  a,b".toList ⟨'a', by decide, by decide⟩⟩

end parse

/-! ### Classification and the updater -/

/-- C4. `to_msg` is `Quit` exactly on the lines `quit` and `q`; on every other
line, the empty one included, it is `Command` of that same line; it is never
`Nop`. -/
theorem to_msg_exact (line : Str) :
    (to_msg line = Msg.Quit ↔ (line = "quit".toList ∨ line = "q".toList)) ∧
    (¬ (line = "quit".toList ∨ line = "q".toList) → to_msg line = Msg.Command line) ∧
    to_msg [] = Msg.Command [] ∧
    to_msg line ≠ Msg.Nop := by
  have hempty : to_msg [] = Msg.Command [] := by decide
  by_cases h : line = "quit".toList ∨ line = "q".toList
  · have hq : to_msg line = Msg.Quit := if_pos h
    rw [hq]
    exact ⟨⟨fun _ => h, fun _ => rfl⟩, fun hn => absurd h hn, hempty, by simp⟩
  · have hc : to_msg line = Msg.Command line := if_neg h
    rw [hc]
    exact ⟨⟨fun hq => by simp at hq, fun hq => absurd hq h⟩, fun _ => rfl, hempty, by simp⟩

/-- C5. The update for `Nop` returns a model equal to the one it was given. -/
theorem update_Nop (m : Model) :
    update Msg.Nop m = m ∧
    (update Msg.Nop m).prompt = m.prompt ∧ (update Msg.Nop m).quit = m.quit :=
  ⟨rfl, rfl, rfl⟩

/-- C6. The update for `Quit` sets the quit flag and appends a newline and
`By for now :)` to the prompt, whatever the quit flag was before. -/
theorem update_Quit (m : Model) :
    (update Msg.Quit m).quit = true ∧
    (update Msg.Quit m).prompt
      = m.prompt ++ ['\n'] ++ "By for now :)".toList := by
  constructor
  · rfl
  · simp [update, Updater.on_quit]

/-- C7. The update for `Command c` appends the notice (a newline, then
`Update for command not yet implemented`) and the prompt marker (a newline, then
`>`) to the prompt, keeps the quit flag, and is the same for every `c`. -/
theorem update_Command (m : Model) (c : Command) :
    (update (Msg.Command c) m).prompt
      = m.prompt ++ (['\n'] ++ "Update for command not yet implemented".toList)
          ++ (['\n'] ++ ['>']) ∧
    (update (Msg.Command c) m).quit = m.quit ∧
    ∀ c2 : Command, update (Msg.Command c) m = update (Msg.Command c2) m := by
  refine ⟨?_, rfl, fun _ => rfl⟩
  simp [update, Updater.on_command]

theorem update_Command_eq (m : Model) (c : Command) :
    update (Msg.Command c) m = { prompt := m.prompt ++ notice, quit := m.quit } := by
  simp [update, Updater.on_command, notice]

theorem update_Quit_eq (m : Model) :
    update Msg.Quit m = { prompt := m.prompt ++ farewell, quit := true } := by
  simp [update, Updater.on_quit, farewell]

/-! ### The interpreter loop -/

namespace REPL

/-- One call of `operator++` written out: the message taken is the one at the back
of the deque (`Nop` when the deque is empty), and the call branches on the quit
flag of the updated model. -/
theorem increment_eq (r : REPL) (io : Console) :
    increment r io =
      if (update (r.in_.getLastD Msg.Nop) r.model).quit = true then
        (false,
          { r with model := update (r.in_.getLastD Msg.Nop) r.model, in_ := r.in_.dropLast },
          { io with cout := io.cout ++ [(update (r.in_.getLastD Msg.Nop) r.model).prompt] })
      else
        (true,
          { r with
            model := update (r.in_.getLastD Msg.Nop) r.model
            in_ := r.in_.dropLast ++ [to_msg (io.cin.headD [])] },
          { cin := io.cin.tail
            cout := io.cout ++ [(update (r.in_.getLastD Msg.Nop) r.model).prompt]
            reads := io.reads + 1 }) := by
  have hpop : (if r.in_.length > 0 then (r.in_.getLastD Msg.Nop, r.in_.dropLast)
      else (Msg.Nop, r.in_)) = (r.in_.getLastD Msg.Nop, r.in_.dropLast) := by
    cases h : r.in_ with
    | nil => simp
    | cons a l => simp
  have hline : getline_cin io.cin [] = (io.cin.headD [], io.cin.tail) := by
    cases io.cin <;> rfl
  simp only [increment, hpop, hline, view, List.nil_append, List.foldl_cons, List.foldl_nil]

/-- C8. In one call of `operator++`, the model is updated with the message taken
from the deque and its prompt is written out; when the updated model has
`quit = true` the call returns false and `std::cin` is not read; otherwise
`std::getline` is called once, the classification of the line it read is put on
the deque, and the call returns true. -/
theorem increment_quit_terminal (r : REPL) (io : Console) :
    (increment r io).2.1.model = update (r.in_.getLastD Msg.Nop) r.model ∧
    (increment r io).2.2.cout = io.cout ++ [(increment r io).2.1.model.prompt] ∧
    ((increment r io).2.1.model.quit = true →
      (increment r io).1 = false ∧
      (increment r io).2.2.reads = io.reads ∧
      (increment r io).2.2.cin = io.cin) ∧
    ((increment r io).2.1.model.quit = false →
      (increment r io).1 = true ∧
      (increment r io).2.2.reads = io.reads + 1 ∧
      (increment r io).2.2.cin = io.cin.tail ∧
      (increment r io).2.1.in_ = r.in_.dropLast ++ [to_msg (io.cin.headD [])]) := by
  rw [increment_eq]
  by_cases hq : (update (r.in_.getLastD Msg.Nop) r.model).quit = true
  · rw [if_pos hq]
    exact ⟨rfl, rfl, fun _ => ⟨rfl, rfl, rfl⟩,
      fun h => absurd (hq.symm.trans h) (by decide)⟩
  · rw [if_neg hq]
    exact ⟨rfl, rfl, fun h => absurd h hq, fun _ => ⟨rfl, rfl, rfl, rfl⟩⟩

theorem to_msg_of_quit (q : Str) (hq : q = "quit".toList ∨ q = "q".toList) :
    to_msg q = Msg.Quit := if_pos hq

theorem to_msg_of_not_quit (l : Str) (hl : ¬ (l = "quit".toList ∨ l = "q".toList)) :
    to_msg l = Msg.Command l := if_neg hl

theorem run_succ (fuel : Nat) (r : REPL) (io : Console) :
    run (fuel + 1) r io =
      match increment r io with
      | (false, r1, io1) => some (1, r1, io1)
      | (true, r1, io1) =>
        match run fuel r1 io1 with
        | none => none
        | some (n, r2, io2) => some (n + 1, r2, io2) := rfl

/-- One call of `operator++` on a deque that holds one `Command`, with the quit
flag clear. -/
theorem increment_command (r : REPL) (c : Command) (io : Console)
    (hin : r.in_ = [Msg.Command c]) (hquit : r.model.quit = false) :
    increment r io =
      (true,
        { r with
          model := { prompt := r.model.prompt ++ notice, quit := false }
          in_ := [to_msg (io.cin.headD [])] },
        { cin := io.cin.tail, cout := io.cout ++ [r.model.prompt ++ notice],
          reads := io.reads + 1 }) := by
  rw [increment_eq, hin]
  simp [update_Command_eq, hquit]

/-- One call of `operator++` on a deque that holds one `Quit`. -/
theorem increment_quit (r : REPL) (io : Console) (hin : r.in_ = [Msg.Quit]) :
    increment r io =
      (false,
        { r with model := { prompt := r.model.prompt ++ farewell, quit := true }, in_ := [] },
        { io with cout := io.cout ++ [r.model.prompt ++ farewell] }) := by
  rw [increment_eq, hin]
  simp [update_Quit_eq]

/-- The loop from a state whose deque holds one `Command`, over input lines of
which the first `quit` or `q` comes after the lines `pre`. -/
theorem run_commands (q : Str) (post : List Str)
    (hq : q = "quit".toList ∨ q = "q".toList) (pre : List Str)
    (hpre : ∀ l ∈ pre, ¬ (l = "quit".toList ∨ l = "q".toList)) :
    ∀ (r : REPL) (c : Command) (out : List Str) (k fuel : Nat),
      r.in_ = [Msg.Command c] → r.model.quit = false → pre.length + 2 ≤ fuel →
      run fuel r { cin := pre ++ q :: post, cout := out, reads := k } =
        some (pre.length + 2,
          { r with
            model :=
              { prompt := r.model.prompt ++ (List.replicate (pre.length + 1) notice).flatten
                  ++ farewell
                quit := true }
            in_ := [] },
          { cin := post
            cout := out ++
              (List.range (pre.length + 1)).map (fun i =>
                r.model.prompt ++ (List.replicate (i + 1) notice).flatten)
              ++ [r.model.prompt ++ (List.replicate (pre.length + 1) notice).flatten
                  ++ farewell]
            reads := k + (pre.length + 1) }) := by
  induction pre with
  | nil =>
    intro r c out k fuel hin hquit hfuel
    obtain ⟨f, rfl⟩ : ∃ f, fuel = f + 2 := ⟨fuel - 2, by simp at hfuel; omega⟩
    rw [run_succ, increment_command r c _ hin hquit]
    simp only [List.nil_append, List.headD_cons, List.tail_cons, to_msg_of_quit q hq]
    rw [run_succ, increment_quit _ _ rfl]
    simp [List.range_succ_eq_map, List.replicate_succ]
  | cons l pre ih =>
    intro r c out k fuel hin hquit hfuel
    obtain ⟨f, rfl⟩ : ∃ f, fuel = f + 1 := ⟨fuel - 1, by simp at hfuel; omega⟩
    have hl := to_msg_of_not_quit l (hpre l (List.mem_cons_self _ _))
    rw [run_succ, increment_command r c _ hin hquit]
    simp only [List.cons_append, List.headD_cons, List.tail_cons, hl]
    rw [ih (fun x hx => hpre x (List.mem_cons_of_mem _ hx)) _ l _ _ f rfl rfl
      (by simp at hfuel ⊢; omega)]
    simp only [List.length_cons, Option.some.injEq, Prod.mk.injEq, true_and]
    refine ⟨?_, ?_⟩
    · simp [List.replicate_succ]
    · simp [List.replicate_succ, List.range_succ_eq_map, List.map_map, Function.comp_def]
      omega

/-- C9. With any seed command text and input lines whose first `quit` or `q` is
at index `n` (after the `n` lines `pre`), the loop `while (++repl)` ends after
`n + 2` iterations whenever it is given that many, has then read the `n + 1` lines
up to that one and no more, and ends with the quit flag set and the prompt made
of the init notice, `n + 1` notices with prompt marker, and the farewell text. The
first iteration updates the initial model with the seed as a `Command`, and what
each iteration wrote out is listed. -/
theorem run_until_quit (environment_file_path : Str) (seed : Command) (file : Option Str)
    (pre : List Str) (q : Str) (post : List Str)
    (hpre : ∀ l ∈ pre, l ≠ "quit".toList ∧ l ≠ "q".toList)
    (hq : q = "quit".toList ∨ q = "q".toList)
    (fuel : Nat) (hfuel : pre.length + 2 ≤ fuel) :
    ∃ r io,
      run fuel (new environment_file_path seed file) { cin := pre ++ q :: post }
        = some (pre.length + 2, r, io) ∧
      io.reads = pre.length + 1 ∧
      io.cin = post ∧
      r.model.quit = true ∧
      r.model.prompt =
        "\nInit from ".toList ++ environment_file_path ++
          (List.replicate (pre.length + 1)
            ("\nUpdate for command not yet implemented".toList ++ "\n>".toList)).flatten ++
          "\nBy for now :)".toList ∧
      (increment (new environment_file_path seed file) { cin := pre ++ q :: post }).2.1.model
        = update (Msg.Command seed) (Cratchit.new environment_file_path file).init ∧
      io.cout =
        (List.range (pre.length + 1)).map (fun i =>
          "\nInit from ".toList ++ environment_file_path ++
            (List.replicate (i + 1)
              ("\nUpdate for command not yet implemented".toList ++ "\n>".toList)).flatten)
        ++ ["\nInit from ".toList ++ environment_file_path ++
          (List.replicate (pre.length + 1)
            ("\nUpdate for command not yet implemented".toList ++ "\n>".toList)).flatten ++
          "\nBy for now :)".toList] := by
  have hpre2 : ∀ l ∈ pre, ¬ (l = "quit".toList ∨ l = "q".toList) := by
    intro l hl h
    rcases h with h | h
    · exact (hpre l hl).1 h
    · exact (hpre l hl).2 h
  have hrun := run_commands q post hq pre hpre2 (new environment_file_path seed file) seed
    [] 0 fuel rfl rfl hfuel
  refine ⟨_, _, hrun, ?_, rfl, rfl, ?_, ?_, ?_⟩
  · simp
  · simp [new, Cratchit.new, Cratchit.init, notice, farewell]
  · rw [increment_eq]
    rfl
  · simp [new, Cratchit.new, Cratchit.init, notice, farewell]

/-- C9 at the input of the specification: seed `hello ` and the one input line
`q` give two iterations and one line read; the first output holds the init notice
and then the notice for the command, the second ends in the farewell text. -/
theorem run_until_quit_witness :
    (∀ l ∈ ([] : List Str), l ≠ "quit".toList ∧ l ≠ "q".toList) ∧
    ("q".toList = "quit".toList ∨ "q".toList = "q".toList) ∧
    (∃ r io,
      run 2 (new "cratchit.env".toList "hello ".toList none) { cin := [] ++ "q".toList :: [] }
        = some (([] : List Str).length + 2, r, io) ∧
      io.reads = ([] : List Str).length + 1 ∧
      io.cin = [] ∧
      r.model.quit = true ∧
      r.model.prompt =
        "\nInit from ".toList ++ "cratchit.env".toList ++
          (List.replicate (([] : List Str).length + 1)
            ("\nUpdate for command not yet implemented".toList ++ "\n>".toList)).flatten ++
          "\nBy for now :)".toList ∧
      (increment (new "cratchit.env".toList "hello ".toList none)
          { cin := [] ++ "q".toList :: [] }).2.1.model
        = update (Msg.Command "hello ".toList) (Cratchit.new "cratchit.env".toList none).init ∧
      io.cout =
        (List.range (([] : List Str).length + 1)).map (fun i =>
          "\nInit from ".toList ++ "cratchit.env".toList ++
            (List.replicate (i + 1)
              ("\nUpdate for command not yet implemented".toList ++ "\n>".toList)).flatten)
        ++ ["\nInit from ".toList ++ "cratchit.env".toList ++
          (List.replicate (([] : List Str).length + 1)
            ("\nUpdate for command not yet implemented".toList ++ "\n>".toList)).flatten ++
          "\nBy for now :)".toList]) ∧
    (run 2 (new "cratchit.env".toList "hello ".toList none) { cin := ["q".toList] }).map
        (fun x => (x.1, x.2.2.reads, x.2.2.cout))
      = some (2, 1,
          ["\nInit from cratchit.env\nUpdate for command not yet implemented\n>".toList,
           ("\nInit from cratchit.env\nUpdate for command not yet implemented\n>" ++
            "\nBy for now :)").toList]) :=
  ⟨by simp, Or.inr rfl,
    run_until_quit "cratchit.env".toList "hello ".toList none [] "q".toList []
      (by simp) (Or.inr rfl) 2 (by decide),
    by decide⟩

end REPL

/-! ### The text form of the environment -/

theorem put_quoted_chars_eq (os s : Str) :
    put_quoted_chars os s = os ++ spec_escape s := by
  induction s generalizing os with
  | nil => simp [put_quoted_chars, spec_escape]
  | cons c rest ih =>
    by_cases h : c = '"' ∨ c = '\\'
    · simp [put_quoted_chars, spec_escape, h, ih]
    · simp [put_quoted_chars, spec_escape, h, ih]

theorem put_quoted_eq (os s : Str) :
    put_quoted os s = os ++ ['"'] ++ spec_escape s ++ ['"'] := by
  simp [put_quoted, put_quoted_chars_eq]

theorem to_string_eq (entry : Str × EnvironmentValue) :
    to_string entry = spec_entry_line entry := by
  simp [to_string, put_quoted_eq, spec_entry_line, to_string_value]

theorem intercalate_cons (sep x : Str) (xs : List Str) :
    List.intercalate sep (x :: xs) = x ++ (xs.map (fun y => sep ++ y)).flatten := by
  induction xs generalizing x with
  | nil => simp [List.intercalate]
  | cons y ys ih =>
    have h := ih y
    simp only [List.intercalate, List.intersperse, List.flatten_cons, List.map_cons] at h ⊢
    rw [h]
    simp

theorem environment_to_file_from_false (entries : List (Str × EnvironmentValue)) (out : Str) :
    environment_to_file_from false entries out
      = out ++ (entries.map (fun e => ['\n'] ++ spec_entry_line e)).flatten := by
  induction entries generalizing out with
  | nil => simp [environment_to_file_from]
  | cons e rest ih => simp [environment_to_file_from, ih, to_string_eq]

theorem environment_to_file_eq (e : Environment) :
    environment_to_file e = spec_environment_text e.entries := by
  unfold environment_to_file spec_environment_text
  cases h : e.entries with
  | nil => simp [environment_to_file_from, List.intercalate]
  | cons x rest =>
    rw [List.map_cons, intercalate_cons]
    simp [environment_to_file_from, environment_to_file_from_false, to_string_eq,
      List.map_map, Function.comp_def]

/-- C10. The text that `environment_to_file` writes is the text the specification
describes: the entries in strictly ascending key order, each as
`"<key>":"<value>"` with `"` and `\` escaped by a `\`, joined by single newlines;
the text is empty for the empty environment, and otherwise starts and ends with a
double quote, so that no newline comes first or last. -/
theorem environment_to_file_format (e : Environment) :
    environment_to_file e = spec_environment_text e.entries ∧
    e.entries.Pairwise (fun a b => a.1 < b.1) ∧
    environment_to_file Environment.empty = [] ∧
    (e.entries = [] ∨
      ((environment_to_file e).head? = some '"' ∧
        (environment_to_file e).getLast? = some '"')) := by
  refine ⟨environment_to_file_eq e, e.ordered, rfl, ?_⟩
  rw [environment_to_file_eq]
  unfold spec_environment_text
  cases h : e.entries with
  | nil => exact Or.inl rfl
  | cons x rest =>
    right
    rw [List.map_cons, intercalate_cons]
    constructor
    · simp [spec_entry_line]
    · have hlast : ∀ (l : Str) (en : Str × EnvironmentValue),
          (l ++ spec_entry_line en).getLast? = some '"' := by
        intro l en
        have : l ++ spec_entry_line en
            = (l ++ ['"'] ++ spec_escape en.1 ++ ['"'] ++ [':'] ++ ['"'] ++ spec_escape en.2)
              ++ ['"'] := by
          simp [spec_entry_line]
        rw [this, List.getLast?_append]
        rfl
      rcases List.eq_nil_or_concat rest with hr | ⟨rest2, y, hr⟩
      · have := hlast [] x
        simpa [hr] using this
      · have := hlast (spec_entry_line x ++
          (rest2.map (fun y => ['\n'] ++ spec_entry_line y)).flatten ++ ['\n']) y
        simpa [hr] using this

/-! ### Reading the text form back -/

theorem get_quoted_chars_quote (tail acc : Str) :
    get_quoted_chars ('"' :: tail) acc = ((tail, false), acc) := by
  rw [get_quoted_chars.eq_def]
  simp only [if_neg (show ¬ ('"' = '\\') by decide), if_true]

theorem get_quoted_chars_escaped (c : Char) (rest acc : Str) :
    get_quoted_chars ('\\' :: c :: rest) acc = get_quoted_chars rest (acc ++ [c]) := by
  rw [get_quoted_chars.eq_def]
  simp only [if_true]

theorem get_quoted_chars_plain (c : Char) (rest acc : Str) (h1 : c ≠ '\\') (h2 : c ≠ '"') :
    get_quoted_chars (c :: rest) acc = get_quoted_chars rest (acc ++ [c]) := by
  rw [get_quoted_chars.eq_def]
  simp only [h1, h2, if_false]

theorem spec_escape_cons (c : Char) (rest : Str) :
    spec_escape (c :: rest)
      = (if c = '"' ∨ c = '\\' then ['\\', c] else [c]) ++ spec_escape rest := by
  simp [spec_escape]

theorem get_quoted_chars_escape (k tail acc : Str) :
    get_quoted_chars (spec_escape k ++ '"' :: tail) acc = ((tail, false), acc ++ k) := by
  induction k generalizing acc with
  | nil =>
    show get_quoted_chars ('"' :: tail) acc = _
    rw [get_quoted_chars_quote, List.append_nil]
  | cons c rest ih =>
    rw [spec_escape_cons]
    by_cases h : c = '"' ∨ c = '\\'
    · rw [if_pos h]
      show get_quoted_chars ('\\' :: c :: (spec_escape rest ++ '"' :: tail)) acc = _
      rw [get_quoted_chars_escaped, ih, List.append_assoc]
      rfl
    · rw [if_neg h]
      push_neg at h
      show get_quoted_chars (c :: (spec_escape rest ++ '"' :: tail)) acc = _
      rw [get_quoted_chars_plain _ _ _ h.2 h.1, ih, List.append_assoc]
      rfl

theorem extract_char_head (c : Char) (rest : Str) (c0 : Char) (h : isspace c = false) :
    extract_char { buf := c :: rest } c0 = ({ buf := rest }, c) := by
  unfold extract_char
  simp [istream.good, List.dropWhile, h]

theorem extract_quoted_escape (k tail str : Str) :
    extract_quoted { buf := '"' :: (spec_escape k ++ '"' :: tail) } str
      = ({ buf := tail }, k) := by
  unfold extract_quoted
  rw [extract_char_head _ _ _ (by decide)]
  simp [istream.good, get_quoted_chars_escape]

/-- The loader reads the line written for an entry back as that entry. -/
theorem read_value_line_entry (environment : Environment) (entry : Str × EnvironmentValue) :
    read_value_line environment (spec_entry_line entry) = environment.insert entry := by
  obtain ⟨k, v⟩ := entry
  have hline : spec_entry_line (k, v)
      = '"' :: (spec_escape k ++ '"' :: (':' :: '"' :: (spec_escape v ++ '"' :: []))) := by
    simp [spec_entry_line]
  unfold read_value_line
  rw [hline]
  simp only [extract_quoted_escape, extract_char_head _ _ _ (show isspace ':' = false by decide),
    to_value]

theorem getlines_append_newline (x rest : Str) (hx : '\n' ∉ x) :
    getlines (x ++ '\n' :: rest) = x :: getlines rest := by
  induction x with
  | nil => simp [getlines]
  | cons c x ih =>
    have hc : c ≠ '\n' := fun h => hx (by simp [h])
    have hx2 : '\n' ∉ x := fun h => hx (List.mem_cons_of_mem _ h)
    have hstep : getlines (c :: (x ++ '\n' :: rest))
        = match getlines (x ++ '\n' :: rest) with
          | [] => [[c]]
          | line :: lines => (c :: line) :: lines := by
      rw [getlines, if_neg hc]
    rw [List.cons_append, hstep, ih hx2]

theorem getlines_single (x : Str) (hx : '\n' ∉ x) (hne : x ≠ []) :
    getlines x = [x] := by
  induction x with
  | nil => exact absurd rfl hne
  | cons c x ih =>
    have hc : c ≠ '\n' := fun h => hx (by simp [h])
    have hx2 : '\n' ∉ x := fun h => hx (List.mem_cons_of_mem _ h)
    cases x with
    | nil => simp [getlines, hc]
    | cons d y =>
      have := ih hx2 (by simp)
      simp only [getlines, if_neg hc] at this ⊢
      rw [this]

/-- The `std::getline` loop visits the lines of a text made of non-empty lines
without newline characters, joined by newlines. -/
theorem getlines_intercalate (lines : List Str)
    (h : ∀ x ∈ lines, '\n' ∉ x ∧ x ≠ []) :
    getlines (List.intercalate ['\n'] lines) = lines := by
  cases lines with
  | nil => simp [List.intercalate, getlines]
  | cons x xs =>
    rw [intercalate_cons]
    induction xs generalizing x with
    | nil =>
      simpa using getlines_single x (h x (by simp)).1 (h x (by simp)).2
    | cons y ys ih =>
      have hx := h x (by simp)
      have hrec := ih y (fun z hz => h z (List.mem_cons_of_mem _ hz))
      simp only [List.map_cons, List.flatten_cons, List.cons_append, List.nil_append]
        at hrec ⊢
      rw [getlines_append_newline x _ hx.1, hrec]

theorem spec_escape_no_newline (k : Str) (hk : '\n' ∉ k) : '\n' ∉ spec_escape k := by
  intro hmem
  simp only [spec_escape, List.mem_flatMap] at hmem
  obtain ⟨c, hc, hin⟩ := hmem
  split_ifs at hin with h
  · simp only [List.mem_cons, List.mem_singleton, List.not_mem_nil, or_false] at hin
    rcases hin with hin | hin
    · exact absurd hin (by decide)
    · exact hk (hin ▸ hc)
  · simp only [List.mem_singleton] at hin
    exact hk (hin ▸ hc)

theorem spec_entry_line_no_newline (entry : Str × EnvironmentValue)
    (h1 : '\n' ∉ entry.1) (h2 : '\n' ∉ entry.2) :
    '\n' ∉ spec_entry_line entry ∧ spec_entry_line entry ≠ [] := by
  have e1 := spec_escape_no_newline _ h1
  have e2 := spec_escape_no_newline _ h2
  constructor
  · simp [spec_entry_line, e1, e2]
  · simp [spec_entry_line]

theorem is_value_line_entry (entry : Str × EnvironmentValue) :
    is_value_line (spec_entry_line entry) = true := by
  have hline : spec_entry_line entry
      = '"' :: (spec_escape entry.1 ++ '"' :: (':' :: '"' :: (spec_escape entry.2 ++ '"' :: []))) := by
    simp [spec_entry_line]
  rw [hline]
  simp [is_value_line]

theorem foldl_lines_entries (entries : List (Str × EnvironmentValue)) (environment : Environment) :
    (entries.map spec_entry_line).foldl
      (fun environment line =>
        if is_value_line line then read_value_line environment line else environment)
      environment
    = entries.foldl Environment.insert environment := by
  induction entries generalizing environment with
  | nil => rfl
  | cons x rest ih =>
    simp only [List.map_cons, List.foldl_cons, is_value_line_entry, if_true,
      read_value_line_entry, ih]

/-- What the loader inserts into the member `environment` when it reads the text
written for entries whose keys and values hold no newline. -/
theorem environment_from_file_to_file (e member : Environment)
    (h : ∀ kv ∈ e.entries, '\n' ∉ kv.1 ∧ '\n' ∉ kv.2) :
    (environment_from_file member (some (environment_to_file e))).2
      = e.entries.foldl Environment.insert
          ((member.insert ("Test Entry".toList, "Test Value".toList)).insert
            ("Test2".toList, "4711".toList)) := by
  have hlines : getlines (environment_to_file e) = e.entries.map spec_entry_line := by
    rw [environment_to_file_eq, spec_environment_text]
    apply getlines_intercalate
    intro x hx
    obtain ⟨kv, hkv, rfl⟩ := List.mem_map.1 hx
    exact spec_entry_line_no_newline kv (h kv hkv).1 (h kv hkv).2
  simp only [environment_from_file, hlines, foldl_lines_entries]

/-! ### Order facts about `std::map::insert` -/

theorem Environment.eq_of_entries (a b : Environment) (h : a.entries = b.entries) : a = b := by
  cases a
  cases b
  simp only [Environment.mk.injEq]
  exact h

theorem Environment.foldl_insert_entries (l : List (Str × EnvironmentValue)) (e : Environment) :
    (l.foldl Environment.insert e).entries = l.foldl map_insert e.entries := by
  induction l generalizing e with
  | nil => rfl
  | cons x rest ih => simp only [List.foldl_cons, ih, Environment.insert]

theorem mem_map_insert (l : List (Str × EnvironmentValue)) (kv x : Str × EnvironmentValue)
    (hx : x ∈ map_insert l kv) : x ∈ l ∨ x = kv := by
  induction l with
  | nil =>
    simp only [map_insert, List.mem_singleton] at hx
    exact Or.inr hx
  | cons e rest ih =>
    simp only [map_insert] at hx
    split_ifs at hx with h1 h2
    · rcases List.mem_cons.1 hx with h | h
      · exact Or.inr h
      · exact Or.inl h
    · rcases List.mem_cons.1 hx with h | h
      · exact Or.inl (h ▸ List.mem_cons_self _ _)
      · rcases ih h with h3 | h3
        · exact Or.inl (List.mem_cons_of_mem _ h3)
        · exact Or.inr h3
    · exact Or.inl hx

theorem mem_map_insert_of_mem (l : List (Str × EnvironmentValue)) (kv x : Str × EnvironmentValue)
    (hx : x ∈ l) : x ∈ map_insert l kv := by
  induction l with
  | nil => cases hx
  | cons e rest ih =>
    simp only [map_insert]
    split_ifs with h1 h2
    · exact List.mem_cons_of_mem _ hx
    · rcases List.mem_cons.1 hx with h | h
      · exact h ▸ List.mem_cons_self _ _
      · exact List.mem_cons_of_mem _ (ih h)
    · exact hx

theorem map_insert_has_key (l : List (Str × EnvironmentValue)) (kv : Str × EnvironmentValue) :
    ∃ y ∈ map_insert l kv, y.1 = kv.1 := by
  induction l with
  | nil => exact ⟨kv, by simp [map_insert], rfl⟩
  | cons e rest ih =>
    simp only [map_insert]
    split_ifs with h1 h2
    · exact ⟨kv, List.mem_cons_self _ _, rfl⟩
    · obtain ⟨y, hy, hk⟩ := ih
      exact ⟨y, List.mem_cons_of_mem _ hy, hk⟩
    · refine ⟨e, List.mem_cons_self _ _, ?_⟩
      rcases lt_trichotomy e.1 kv.1 with h | h | h
      · exact absurd h h2
      · exact h
      · exact absurd h h1

theorem foldl_map_insert_subset (target : List (Str × EnvironmentValue)) :
    ∀ (l acc : List (Str × EnvironmentValue)),
      (∀ x ∈ acc, x ∈ target) → (∀ x ∈ l, x ∈ target) →
      ∀ x ∈ l.foldl map_insert acc, x ∈ target := by
  intro l
  induction l with
  | nil => intro acc hacc _ x hx; exact hacc x hx
  | cons y rest ih =>
    intro acc hacc hl x hx
    refine ih (map_insert acc y) ?_ (fun z hz => hl z (List.mem_cons_of_mem _ hz)) x hx
    intro z hz
    rcases mem_map_insert acc y z hz with h | h
    · exact hacc z h
    · exact h ▸ hl y (List.mem_cons_self _ _)

theorem foldl_map_insert_keeps (l acc : List (Str × EnvironmentValue))
    (x : Str × EnvironmentValue) (hx : x ∈ acc) : x ∈ l.foldl map_insert acc := by
  induction l generalizing acc with
  | nil => exact hx
  | cons y rest ih => exact ih (map_insert acc y) (mem_map_insert_of_mem acc y x hx)

theorem ordered_key_unique (target : List (Str × EnvironmentValue))
    (ht : target.Pairwise (fun a b => a.1 < b.1)) (a b : Str × EnvironmentValue)
    (ha : a ∈ target) (hb : b ∈ target) (hab : a.1 = b.1) : a = b := by
  have hnodup : (target.map Prod.fst).Nodup := by
    rw [List.Nodup, List.pairwise_map]
    exact ht.imp (fun h => ne_of_lt h)
  exact List.inj_on_of_nodup_map hnodup ha hb hab

theorem foldl_map_insert_covers (target : List (Str × EnvironmentValue))
    (ht : target.Pairwise (fun a b => a.1 < b.1)) :
    ∀ (l acc : List (Str × EnvironmentValue)),
      (∀ x ∈ acc, x ∈ target) → (∀ x ∈ l, x ∈ target) →
      ∀ x ∈ l, x ∈ l.foldl map_insert acc := by
  intro l
  induction l with
  | nil => intro acc _ _ x hx; cases hx
  | cons y rest ih =>
    intro acc hacc hl x hx
    have hsub : ∀ z ∈ map_insert acc y, z ∈ target := by
      intro z hz
      rcases mem_map_insert acc y z hz with h | h
      · exact hacc z h
      · exact h ▸ hl y (List.mem_cons_self _ _)
    rcases List.mem_cons.1 hx with h | h
    · obtain ⟨z, hz, hk⟩ := map_insert_has_key acc y
      have hzy : z = y :=
        ordered_key_unique target ht z y (hsub z hz) (hl y (List.mem_cons_self _ _)) hk
      rw [h]
      exact foldl_map_insert_keeps rest _ y (hzy ▸ hz)
    · exact ih (map_insert acc y) hsub (fun z hz => hl z (List.mem_cons_of_mem _ hz)) x h

theorem ordered_ext (a b : List (Str × EnvironmentValue))
    (ha : a.Pairwise (fun x y => x.1 < y.1)) (hb : b.Pairwise (fun x y => x.1 < y.1))
    (h : ∀ x, x ∈ a ↔ x ∈ b) : a = b := by
  haveI : IsAntisymm (Str × EnvironmentValue) (fun x y => x.1 < y.1) :=
    ⟨fun x y h1 h2 => absurd h2 (lt_asymm h1)⟩
  have hna : a.Nodup := ha.imp (fun {x y} hxy hEq => absurd (hEq ▸ hxy) (lt_irrefl _))
  have hnb : b.Nodup := hb.imp (fun {x y} hxy hEq => absurd (hEq ▸ hxy) (lt_irrefl _))
  exact List.eq_of_perm_of_sorted ((List.perm_ext_iff_of_nodup hna hnb).2 h) ha hb

/-- Inserting the entries of an environment, one after the other, into a table
that holds only entries of that environment gives the environment back. -/
theorem foldl_insert_self (e acc : Environment) (hacc : ∀ x ∈ acc.entries, x ∈ e.entries) :
    e.entries.foldl Environment.insert acc = e := by
  apply Environment.eq_of_entries
  rw [Environment.foldl_insert_entries]
  apply ordered_ext _ _ _ e.ordered
  · intro x
    constructor
    · exact foldl_map_insert_subset e.entries e.entries acc.entries hacc (fun _ h => h) x
    · exact foldl_map_insert_covers e.entries e.ordered e.entries acc.entries hacc
        (fun _ h => h) x
  · rw [← Environment.foldl_insert_entries]
    exact (e.entries.foldl Environment.insert acc).ordered

/-! ### Saving and loading -/

theorem no_newline_of_no_cntrl (k : Str) (h : ∀ c ∈ k, iscntrl c = false) : '\n' ∉ k := by
  intro hmem
  have := h '\n' hmem
  revert this
  decide

/-- C1, in the form that holds of the code. For an environment `e` whose keys and
values hold no control character, `environment_from_file`, started on an empty
member table and reading the text that `environment_to_file` wrote for `e`, leaves
in the member table the two seeded entries with the entries of `e` inserted after
them (an entry of `e` under a seeded key is not taken); this is `e` itself when
`e` holds the two seeded entries. -/
theorem environment_round_trip (e : Environment)
    (h : ∀ kv ∈ e.entries,
      (∀ c ∈ kv.1, iscntrl c = false) ∧ (∀ c ∈ kv.2, iscntrl c = false)) :
    (environment_from_file Environment.empty (some (environment_to_file e))).2
      = e.entries.foldl Environment.insert
          ((Environment.empty.insert ("Test Entry".toList, "Test Value".toList)).insert
            ("Test2".toList, "4711".toList)) ∧
    (("Test Entry".toList, "Test Value".toList) ∈ e.entries →
      ("Test2".toList, "4711".toList) ∈ e.entries →
      (environment_from_file Environment.empty (some (environment_to_file e))).2 = e) := by
  have hload := environment_from_file_to_file e Environment.empty
    (fun kv hkv => ⟨no_newline_of_no_cntrl _ (h kv hkv).1, no_newline_of_no_cntrl _ (h kv hkv).2⟩)
  refine ⟨hload, fun h1 h2 => ?_⟩
  rw [hload]
  apply foldl_insert_self
  intro x hx
  have hx1 := mem_map_insert _ _ x hx
  rcases hx1 with hx1 | hx1
  · have hx2 := mem_map_insert _ _ x hx1
    rcases hx2 with hx2 | hx2
    · cases hx2
    · exact hx2 ▸ h1
  · exact hx1 ▸ h2

/-- C1 at `sample_environment`: no field holds a control character,
the two seeded entries are present, and loading the saved text gives the
environment back. -/
theorem environment_round_trip_witness :
    (∀ kv ∈ sample_environment.entries,
      (∀ c ∈ kv.1, iscntrl c = false) ∧ (∀ c ∈ kv.2, iscntrl c = false)) ∧
    ("Test Entry".toList, "Test Value".toList) ∈ sample_environment.entries ∧
    ("Test2".toList, "4711".toList) ∈ sample_environment.entries ∧
    (environment_from_file Environment.empty
      (some (environment_to_file sample_environment))).2 = sample_environment :=
  ⟨by decide, by decide, by decide,
    (environment_round_trip sample_environment (by decide)).2 (by decide) (by decide)⟩

/-- C1 as stated fails at `single_environment`, whose fields hold no control
character: on the text saved for it, `environment_from_file` returns the empty
map, and the member table it filled holds the two seeded entries besides `a`;
neither is the environment that was saved. -/
theorem environment_round_trip_fails :
    (∀ kv ∈ single_environment.entries,
      (∀ c ∈ kv.1, iscntrl c = false) ∧ (∀ c ∈ kv.2, iscntrl c = false)) ∧
    environment_to_file single_environment = "\"a\":\"b\"".toList ∧
    (environment_from_file Environment.empty
      (some (environment_to_file single_environment))).1.entries = [] ∧
    (environment_from_file Environment.empty
      (some (environment_to_file single_environment))).2.entries
      = [("Test Entry".toList, "Test Value".toList), ("Test2".toList, "4711".toList),
         ("a".toList, "b".toList)] ∧
    (environment_from_file Environment.empty
      (some (environment_to_file single_environment))).1 ≠ single_environment ∧
    (environment_from_file Environment.empty
      (some (environment_to_file single_environment))).2 ≠ single_environment := by
  refine ⟨by decide, by decide, by decide, by decide, ?_, ?_⟩
  · intro h
    have := congrArg Environment.entries h
    revert this
    decide
  · intro h
    have := congrArg Environment.entries h
    revert this
    decide

/-! ### The loader, line by line -/

theorem read_value_line_eq (environment : Environment) (line : Str) :
    read_value_line environment line = environment.insert (extract_entry line) := rfl

theorem load_line_value (environment : Environment) (line : Str)
    (h : is_value_line line = true) :
    load_line environment line = environment.insert (extract_entry line) := by
  rw [load_line, if_pos h, read_value_line_eq]

theorem load_line_skip (environment : Environment) (line : Str)
    (h : is_value_line line = false) : load_line environment line = environment := by
  rw [load_line, if_neg (by simp [h])]

theorem environment_from_file_member (member : Environment) (file : Option Str) :
    (environment_from_file member file).2
      = (getlines (file.getD [])).foldl load_line
          ((member.insert ("Test Entry".toList, "Test Value".toList)).insert
            ("Test2".toList, "4711".toList)) := by
  cases file <;> rfl

theorem foldl_load_line_filter (lines : List Str) (environment : Environment) :
    lines.foldl load_line environment
      = (lines.filter is_value_line).foldl read_value_line environment := by
  induction lines generalizing environment with
  | nil => rfl
  | cons line rest ih =>
    by_cases h : is_value_line line = true
    · rw [List.filter_cons_of_pos h, List.foldl_cons, List.foldl_cons, ih, load_line, if_pos h]
    · rw [List.filter_cons_of_neg h, List.foldl_cons, ih,
        load_line_skip _ _ (by simpa using h)]

theorem map_insert_of_key (l : List (Str × EnvironmentValue))
    (hl : l.Pairwise (fun a b => a.1 < b.1)) (kv : Str × EnvironmentValue)
    (v : EnvironmentValue) (h : (kv.1, v) ∈ l) : map_insert l kv = l := by
  induction l with
  | nil => cases h
  | cons e rest ih =>
    rw [List.pairwise_cons] at hl
    simp only [map_insert]
    split_ifs with h1 h2
    · exfalso
      rcases List.mem_cons.1 h with he | hr
      · rw [← he] at h1
        exact lt_irrefl _ h1
      · exact lt_asymm h1 (hl.1 (kv.1, v) hr)
    · rcases List.mem_cons.1 h with he | hr
      · rw [← he] at h2
        exact absurd h2 (lt_irrefl _)
      · rw [ih hl.2 hr]
    · rfl

theorem insert_eq_self_iff (environment : Environment) (kv : Str × EnvironmentValue) :
    environment.insert kv = environment ↔ ∃ v, (kv.1, v) ∈ environment.entries := by
  constructor
  · intro h
    obtain ⟨y, hy, hk⟩ := map_insert_has_key environment.entries kv
    have hy2 : y ∈ environment.entries := by
      have := congrArg Environment.entries h
      simp only [Environment.insert] at this
      rw [this] at hy
      exact hy
    exact ⟨y.2, by rw [← hk]; exact hy2⟩
  · rintro ⟨v, hv⟩
    apply Environment.eq_of_entries
    exact map_insert_of_key environment.entries environment.ordered kv v hv

theorem insert_has_key (environment : Environment) (kv : Str × EnvironmentValue) :
    ∃ v, (kv.1, v) ∈ (environment.insert kv).entries := by
  obtain ⟨y, hy, hk⟩ := map_insert_has_key environment.entries kv
  exact ⟨y.2, by rw [← hk]; exact hy⟩

/-- The extraction reads the line written for an entry back as that entry. -/
theorem extract_entry_to_string (entry : Str × EnvironmentValue) :
    extract_entry (to_string entry) = entry := by
  obtain ⟨k, v⟩ := entry
  have hline : spec_entry_line (k, v)
      = '"' :: (spec_escape k ++ '"' :: (':' :: '"' :: (spec_escape v ++ '"' :: []))) := by
    simp [spec_entry_line]
  rw [to_string_eq]
  unfold extract_entry
  rw [hline]
  simp only [extract_quoted_escape, extract_char_head _ _ _ (show isspace ':' = false by decide),
    to_value]

/-- A line is the one written for an entry only if it is the line written for the
entry that the extraction reads from it. -/
theorem not_entry_line (line : Str) (h : to_string (extract_entry line) ≠ line) :
    ¬ ∃ k v, line = to_string (k, v) := by
  rintro ⟨k, v, hline⟩
  apply h
  rw [hline, extract_entry_to_string]

/-- C11, in the form that holds of the code. A value line is never skipped,
whatever its form: the loader inserts the pair `(name, value)` that the
extraction leaves. The environment after the line has an entry under `name`, and
it equals the environment before the line exactly when `name` was a key of it
already. -/
theorem value_line_is_inserted (environment : Environment) (line : Str) :
    (is_value_line line = true →
      load_line environment line = environment.insert (extract_entry line)) ∧
    read_value_line environment line = environment.insert (extract_entry line) ∧
    (∃ v, ((extract_entry line).1, v) ∈ (read_value_line environment line).entries) ∧
    (read_value_line environment line = environment ↔
      ∃ v, ((extract_entry line).1, v) ∈ environment.entries) := by
  refine ⟨load_line_value environment line, rfl, ?_, ?_⟩
  · rw [read_value_line_eq]
    exact insert_has_key environment (extract_entry line)
  · rw [read_value_line_eq]
    exact insert_eq_self_iff environment (extract_entry line)

/-- C11 as stated fails at the value lines `garbage` and `"k" : "v"` (blanks
around the colon): neither is a line written for an entry, and each adds an entry
to the empty environment, `garbage` with an empty value and `k` with value `v`. -/
theorem malformed_line_is_inserted :
    is_value_line "garbage".toList = true ∧
    (¬ ∃ k v, "garbage".toList = to_string (k, v)) ∧
    (load_line Environment.empty "garbage".toList).entries = [("garbage".toList, [])] ∧
    load_line Environment.empty "garbage".toList ≠ Environment.empty ∧
    is_value_line "\"k\" : \"v\"".toList = true ∧
    (¬ ∃ k v, "\"k\" : \"v\"".toList = to_string (k, v)) ∧
    (load_line Environment.empty "\"k\" : \"v\"".toList).entries
      = [("k".toList, "v".toList)] ∧
    load_line Environment.empty "\"k\" : \"v\"".toList ≠ Environment.empty := by
  refine ⟨by decide, ?_, by decide, ?_, by decide, ?_, by decide, ?_⟩
  · exact not_entry_line _ (by decide)
  · intro h
    have := congrArg Environment.entries h
    revert this
    decide
  · exact not_entry_line _ (by decide)
  · intro h
    have := congrArg Environment.entries h
    revert this
    decide

/-- C12. A line is a value line exactly when it is not empty and its first two
characters are not `//`; a line that is not a value line, such as the empty line
or a line that starts with `//`, leaves the environment as it was, and the table
the loader fills is the one obtained from the value lines of the file alone. -/
theorem is_value_line_exact (line : Str) :
    (is_value_line line = true ↔ (line ≠ [] ∧ line.take 2 ≠ "//".toList)) ∧
    is_value_line [] = false ∧
    (∀ rest : Str, is_value_line ('/' :: '/' :: rest) = false) ∧
    (is_value_line line = false →
      ∀ environment : Environment, load_line environment line = environment) ∧
    (∀ (member : Environment) (file : Option Str),
      (environment_from_file member file).2
        = ((getlines (file.getD [])).filter is_value_line).foldl read_value_line
            ((member.insert ("Test Entry".toList, "Test Value".toList)).insert
              ("Test2".toList, "4711".toList))) := by
  refine ⟨?_, rfl, fun rest => ?_, fun h environment => load_line_skip environment line h,
    fun member file => ?_⟩
  · cases line with
    | nil => simp [is_value_line]
    | cons c rest =>
      have hlen : ¬ ((c :: rest).length = 0) := by simp
      rw [is_value_line, if_neg hlen]
      simp
  · simp [is_value_line]
  · rw [environment_from_file_member, foldl_load_line_filter]

/-- C13. With the file absent, and with the file empty, the load is made without
a failure and fills the table, from an empty one, with exactly the two seeded
entries, `Test Entry` with `Test Value` and `Test2` with `4711`; that table is the
environment of the `Cratchit` constructed then, for every path. -/
theorem environment_from_file_absent :
    (environment_from_file Environment.empty none).2.entries
      = [("Test Entry".toList, "Test Value".toList), ("Test2".toList, "4711".toList)] ∧
    (environment_from_file Environment.empty (some [])).2.entries
      = [("Test Entry".toList, "Test Value".toList), ("Test2".toList, "4711".toList)] ∧
    (∀ p : Str, (Cratchit.new p none).environment.entries
      = [("Test Entry".toList, "Test Value".toList), ("Test2".toList, "4711".toList)]) ∧
    (∀ p : Str, (Cratchit.new p (some [])).environment.entries
      = [("Test Entry".toList, "Test Value".toList), ("Test2".toList, "4711".toList)]) := by
  have habsent : (environment_from_file Environment.empty none).2.entries
      = [("Test Entry".toList, "Test Value".toList), ("Test2".toList, "4711".toList)] := by
    decide
  have hempty : (environment_from_file Environment.empty (some [])).2.entries
      = [("Test Entry".toList, "Test Value".toList), ("Test2".toList, "4711".toList)] := by
    decide
  exact ⟨habsent, hempty, fun _ => habsent, fun _ => hempty⟩

/-- C15. For every key and value, the line that `to_string` gives for the entry
is a value line, and the extraction of the loader reads the key and the value back
from it unchanged; with no newline in the key and the value there is none in the
line. The last part evaluates an entry whose key starts with `//` and holds
blanks, a double quote, a backslash and a colon, and whose value is empty. -/
theorem entry_line_round_trip (key : Str) (value : EnvironmentValue) :
    is_value_line (to_string (key, value)) = true ∧
    extract_entry (to_string (key, value)) = (key, value) ∧
    ('\n' ∉ key → '\n' ∉ value → '\n' ∉ to_string (key, value)) ∧
    to_string ("// a \"b\\:".toList, []) = "\"// a \\\"b\\\\:\":\"\"".toList ∧
    extract_entry "\"// a \\\"b\\\\:\":\"\"".toList = ("// a \"b\\:".toList, []) := by
  refine ⟨?_, extract_entry_to_string (key, value), fun h1 h2 => ?_, by decide, by decide⟩
  · rw [to_string_eq]
    exact is_value_line_entry (key, value)
  · rw [to_string_eq]
    exact (spec_entry_line_no_newline (key, value) h1 h2).1

theorem load_line_keeps (environment : Environment) (line : Str)
    (entry : Str × EnvironmentValue) (h : entry ∈ environment.entries) :
    entry ∈ (load_line environment line).entries := by
  unfold load_line
  split_ifs
  · rw [read_value_line_eq]
    exact mem_map_insert_of_mem environment.entries (extract_entry line) entry h
  · exact h

theorem foldl_load_line_keeps (lines : List Str) (environment : Environment)
    (entry : Str × EnvironmentValue) (h : entry ∈ environment.entries) :
    entry ∈ (lines.foldl load_line environment).entries := by
  induction lines generalizing environment with
  | nil => exact h
  | cons line rest ih => exact ih _ (load_line_keeps environment line entry h)

theorem environment_value_unique (environment : Environment) (k : Str)
    (v v2 : EnvironmentValue) (h : (k, v) ∈ environment.entries)
    (h2 : (k, v2) ∈ environment.entries) : v2 = v := by
  have := ordered_key_unique environment.entries environment.ordered (k, v2) (k, v) h2 h rfl
  exact (Prod.mk.inj this).2

/-- C20. While the loader fills the table, an entry that is in it stays in it,
with its value, through every later line; the entry extracted from a value line
whose key is not yet in the table is in it from then on, so of several value lines
with one key the first gives the value; and whatever the file holds, the seeded
entries keep their values in the table filled from an empty one. The last part
evaluates a file with two lines for the key `k` and a line for the key `Test2`. -/
theorem load_keeps_first_value :
    (∀ (environment : Environment) (lines : List Str) (k : Str) (v : EnvironmentValue),
      (k, v) ∈ environment.entries →
        (k, v) ∈ (lines.foldl load_line environment).entries ∧
        ∀ v2, (k, v2) ∈ (lines.foldl load_line environment).entries → v2 = v) ∧
    (∀ (environment : Environment) (line : Str) (lines : List Str),
      is_value_line line = true →
      (∀ v, ((extract_entry line).1, v) ∉ environment.entries) →
        extract_entry line ∈ ((line :: lines).foldl load_line environment).entries) ∧
    (∀ file : Option Str,
      ("Test Entry".toList, "Test Value".toList)
        ∈ (environment_from_file Environment.empty file).2.entries ∧
      ("Test2".toList, "4711".toList)
        ∈ (environment_from_file Environment.empty file).2.entries ∧
      (∀ v, ("Test Entry".toList, v) ∈ (environment_from_file Environment.empty file).2.entries →
        v = "Test Value".toList) ∧
      (∀ v, ("Test2".toList, v) ∈ (environment_from_file Environment.empty file).2.entries →
        v = "4711".toList)) ∧
    (environment_from_file Environment.empty
      (some "\"k\":\"1\"\n\"k\":\"2\"\n\"Test2\":\"x\"".toList)).2.entries
      = [("Test Entry".toList, "Test Value".toList), ("Test2".toList, "4711".toList),
         ("k".toList, "1".toList)] := by
  refine ⟨?_, ?_, ?_, by decide⟩
  · intro environment lines k v h
    have hin := foldl_load_line_keeps lines environment (k, v) h
    exact ⟨hin, fun v2 h2 => environment_value_unique _ k v v2 hin h2⟩
  · intro environment line lines hvalue hnew
    rw [List.foldl_cons]
    apply foldl_load_line_keeps
    rw [load_line_value environment line hvalue]
    obtain ⟨y, hy, hk⟩ := map_insert_has_key environment.entries (extract_entry line)
    rcases mem_map_insert environment.entries (extract_entry line) y hy with hold | hnewer
    · exfalso
      apply hnew y.2
      rw [← hk]
      exact hold
    · rw [hnewer] at hy
      exact hy
  · intro file
    have h1 : ("Test Entry".toList, "Test Value".toList)
        ∈ (environment_from_file Environment.empty file).2.entries := by
      rw [environment_from_file_member]
      exact foldl_load_line_keeps _ _ _ (by decide)
    have h2 : ("Test2".toList, "4711".toList)
        ∈ (environment_from_file Environment.empty file).2.entries := by
      rw [environment_from_file_member]
      exact foldl_load_line_keeps _ _ _ (by decide)
    exact ⟨h1, h2, fun v hv => environment_value_unique _ _ _ v h1 hv,
      fun v hv => environment_value_unique _ _ _ v h2 hv⟩

/-! ### The deque of pending messages -/

namespace REPL

/-- One call of `operator++` takes the message at the back of the deque and
leaves the messages before it in their order; the classification of the line read
is pushed at the back, behind the messages left; on an empty deque the update is
made with `Nop`. -/
theorem increment_takes_back (r : REPL) (io : Console) :
    (r.in_ = [] → (increment r io).2.1.model = update Msg.Nop r.model) ∧
    (∀ (pending : List Msg) (m : Msg), r.in_ = pending ++ [m] →
      (increment r io).2.1.model = update m r.model ∧
      ((update m r.model).quit = true → (increment r io).2.1.in_ = pending) ∧
      ((update m r.model).quit = false →
        (increment r io).2.1.in_ = pending ++ [to_msg (io.cin.headD [])])) ∧
    (∀ m : Msg, r.in_ = [m] → (increment r io).2.1.model = update m r.model) := by
  have hback : ∀ (pending : List Msg) (m : Msg), r.in_ = pending ++ [m] →
      r.in_.getLastD Msg.Nop = m ∧ r.in_.dropLast = pending := by
    intro pending m h
    rw [h]
    simp
  refine ⟨fun h => ?_, fun pending m h => ?_, fun m h => ?_⟩
  · rw [increment_eq, h]
    split_ifs <;> rfl
  · obtain ⟨h1, h2⟩ := hback pending m h
    rw [increment_eq, h1, h2]
    refine ⟨?_, fun hq => ?_, fun hq => ?_⟩
    · split_ifs <;> rfl
    · rw [if_pos hq]
    · rw [if_neg (by simp [hq])]
  · obtain ⟨h1, -⟩ := hback [] m h
    rw [increment_eq, h1]
    split_ifs <;> rfl

end REPL

/-! ### Invariants of the model and of the loop -/

theorem update_prompt_extends (msg : Msg) (m : Model) :
    m.prompt <+: (update msg m).prompt := by
  cases msg with
  | Nop => exact ⟨[], List.append_nil _⟩
  | Quit =>
    rw [update_Quit_eq]
    exact ⟨farewell, rfl⟩
  | Command c =>
    rw [update_Command_eq]
    exact ⟨notice, rfl⟩

namespace REPL

theorem increment_model (r : REPL) (io : Console) :
    (increment r io).2.1.model = update (r.in_.getLastD Msg.Nop) r.model := by
  rw [increment_eq]
  split_ifs <;> rfl

theorem increment_cout (r : REPL) (io : Console) :
    (increment r io).2.2.cout = io.cout ++ [(increment r io).2.1.model.prompt] := by
  rw [increment_eq]
  split_ifs <;> rfl

theorem iterate_succ (k : Nat) (r : REPL) (io : Console) :
    iterate (k + 1) r io =
      match increment r io with
      | (false, r1, io1) => (false, r1, io1)
      | (true, r1, io1) => iterate k r1 io1 := rfl

/-- What the first `k` iterations write: one text per iteration, each an
extension of the one before, the first an extension of the prompt at the start. -/
theorem iterate_renders (k : Nat) :
    ∀ (r : REPL) (io : Console),
      ∃ renders : List Str,
        (iterate k r io).2.2.cout = io.cout ++ renders ∧
        List.Chain (fun a b => a <+: b) r.model.prompt renders := by
  induction k with
  | zero =>
    intro r io
    exact ⟨[], (List.append_nil _).symm, List.Chain.nil⟩
  | succ k ih =>
    intro r io
    have hm := increment_model r io
    have hc := increment_cout r io
    have hp : r.model.prompt <+: (increment r io).2.1.model.prompt := by
      rw [hm]
      exact update_prompt_extends _ _
    rw [iterate_succ]
    rcases hinc : increment r io with ⟨b, r1, io1⟩
    rw [hinc] at hc hp
    cases b with
    | false =>
      exact ⟨[r1.model.prompt], hc, List.Chain.cons hp List.Chain.nil⟩
    | true =>
      obtain ⟨renders, hcout, hchain⟩ := ih r1 io1
      refine ⟨r1.model.prompt :: renders, ?_, List.Chain.cons hp hchain⟩
      show (iterate k r1 io1).2.2.cout = _
      rw [hcout]
      have hc2 : io1.cout = io.cout ++ [r1.model.prompt] := hc
      rw [hc2, List.append_assoc]
      rfl

/-- The loop that ends is the iteration cut at its fuel. -/
theorem run_eq_iterate (fuel : Nat) :
    ∀ (r : REPL) (io : Console) (n : Nat) (r2 : REPL) (io2 : Console),
      run fuel r io = some (n, r2, io2) → iterate fuel r io = (false, r2, io2) := by
  induction fuel with
  | zero =>
    intro r io n r2 io2 h
    simp [run] at h
  | succ fuel ih =>
    intro r io n r2 io2 h
    rw [run_succ] at h
    rw [iterate_succ]
    rcases hinc : increment r io with ⟨b, r1, io1⟩
    rw [hinc] at h
    cases b with
    | false =>
      simp only [Option.some.injEq, Prod.mk.injEq] at h
      obtain ⟨-, h1, h2⟩ := h
      rw [h1, h2]
    | true =>
      simp only at h
      rcases hrun : run fuel r1 io1 with _ | ⟨n1, r3, io3⟩
      · rw [hrun] at h
        simp at h
      · rw [hrun] at h
        simp only [Option.some.injEq, Prod.mk.injEq] at h
        obtain ⟨-, h1, h2⟩ := h
        show iterate fuel r1 io1 = _
        rw [ih r1 io1 n1 r3 io3 hrun, h1, h2]

end REPL

/-- C16. The prompt of the updated model starts with the prompt of the model
before, for every message; so each call of `operator++` writes a text that starts
with the prompt held before it, and the texts written by the first `k` iterations
of the loop, for every `k` and from every state, each start with the text written
before it, as do the texts written by a loop that has ended. -/
theorem prompt_append_only (msg : Msg) (m : Model) :
    m.prompt <+: (update msg m).prompt ∧
    (∀ (r : REPL) (io : Console),
      (REPL.increment r io).2.2.cout = io.cout ++ [(REPL.increment r io).2.1.model.prompt] ∧
      r.model.prompt <+: (REPL.increment r io).2.1.model.prompt) ∧
    (∀ (k : Nat) (r : REPL) (io : Console),
      ∃ renders : List Str,
        (REPL.iterate k r io).2.2.cout = io.cout ++ renders ∧
        List.Chain (fun a b => a <+: b) r.model.prompt renders) ∧
    (∀ (fuel : Nat) (r : REPL) (io : Console) (n : Nat) (r2 : REPL) (io2 : Console),
      REPL.run fuel r io = some (n, r2, io2) →
      ∃ renders : List Str,
        io2.cout = io.cout ++ renders ∧
        List.Chain (fun a b => a <+: b) r.model.prompt renders) := by
  refine ⟨update_prompt_extends msg m, fun r io => ⟨REPL.increment_cout r io, ?_⟩,
    fun k r io => REPL.iterate_renders k r io, fun fuel r io n r2 io2 h => ?_⟩
  · rw [REPL.increment_model]
    exact update_prompt_extends _ _
  · obtain ⟨renders, hcout, hchain⟩ := REPL.iterate_renders fuel r io
    rw [REPL.run_eq_iterate fuel r io n r2 io2 h] at hcout
    exact ⟨renders, hcout, hchain⟩

/-- C17. The quit flag after an update is the flag before or the message being
`Quit`: a set flag stays set under every message, and `Nop` and every `Command`
leave the flag as it was. -/
theorem update_quit_flag (msg : Msg) (m : Model) :
    (update msg m).quit = (m.quit || decide (msg = Msg.Quit)) ∧
    (m.quit = true → (update msg m).quit = true) ∧
    (update Msg.Nop m).quit = m.quit ∧
    (∀ c : Command, (update (Msg.Command c) m).quit = m.quit) ∧
    (update Msg.Quit m).quit = true := by
  refine ⟨?_, fun h => ?_, rfl, fun _ => rfl, rfl⟩
  · cases msg with
    | Nop => simp [update, Updater.on_nop]
    | Quit => simp [update, Updater.on_quit]
    | Command c => simp [update, Updater.on_command]
  · cases msg with
    | Nop => exact h
    | Quit => rfl
    | Command c => exact h

namespace REPL

/-- From a deque that holds one message, the loop keeps one message in the deque
as long as it runs, and leaves the deque empty when it ends. -/
theorem iterate_queue (k : Nat) :
    ∀ (r : REPL) (io : Console), r.in_.length = 1 →
      ((iterate k r io).1 = true → (iterate k r io).2.1.in_.length = 1) ∧
      ((iterate k r io).1 = false → (iterate k r io).2.1.in_ = []) := by
  induction k with
  | zero =>
    intro r io h
    exact ⟨fun _ => h, fun hf => by simp [iterate] at hf⟩
  | succ k ih =>
    intro r io h
    obtain ⟨m, hm⟩ : ∃ m, r.in_ = [m] := List.length_eq_one.1 h
    rw [iterate_succ, increment_eq, hm]
    by_cases hq : (update ([m].getLastD Msg.Nop) r.model).quit = true
    · rw [if_pos hq]
      exact ⟨fun hf => by simp at hf, fun _ => rfl⟩
    · rw [if_neg hq]
      exact ih _ _ rfl

/-- C18. In the loop started from a constructed `REPL`, for every input and every
number `k` of iterations made: when the loop is still running, the deque holds
exactly one message, the next call of `operator++` updates the model with that
message and not with the `Nop` default, and the deque is empty once the message is
taken, which is when the input line is read; when the loop has ended the deque is
empty; so the deque never holds more than one message. -/
theorem queue_depth_invariant (environment_file_path : Str) (seed : Command)
    (file : Option Str) (io : Console) (k : Nat) :
    ((iterate k (new environment_file_path seed file) io).1 = true →
      ∃ m : Msg,
        (iterate k (new environment_file_path seed file) io).2.1.in_ = [m] ∧
        (iterate k (new environment_file_path seed file) io).2.1.in_.length > 0 ∧
        (increment (iterate k (new environment_file_path seed file) io).2.1
            (iterate k (new environment_file_path seed file) io).2.2).2.1.model
          = update m (iterate k (new environment_file_path seed file) io).2.1.model ∧
        (iterate k (new environment_file_path seed file) io).2.1.in_.dropLast = []) ∧
    ((iterate k (new environment_file_path seed file) io).1 = false →
      (iterate k (new environment_file_path seed file) io).2.1.in_ = []) ∧
    (iterate k (new environment_file_path seed file) io).2.1.in_.length ≤ 1 := by
  have hstart : (new environment_file_path seed file).in_.length = 1 := rfl
  obtain ⟨hrun, hend⟩ := iterate_queue k (new environment_file_path seed file) io hstart
  refine ⟨fun h => ?_, hend, ?_⟩
  · obtain ⟨m, hm⟩ := List.length_eq_one.1 (hrun h)
    refine ⟨m, hm, by rw [hm]; exact Nat.one_pos, ?_, by rw [hm]; rfl⟩
    rw [increment_model, hm]
    rfl
  · cases hflag : (iterate k (new environment_file_path seed file) io).1 with
    | true => exact le_of_eq (hrun hflag)
    | false => rw [hend hflag]; decide

end REPL

/-! ### Parsing word after word -/

theorem spec_words_delimeter (c : Char) (text : Str) (hc : parse.is_delimeter c = true) :
    spec_words (c :: text) = spec_words text := by
  unfold spec_words
  rw [List.splitOnP_cons, if_pos hc]
  rfl

theorem spec_words_delimeters (d text : Str) (hd : ∀ c ∈ d, parse.is_delimeter c = true) :
    spec_words (d ++ text) = spec_words text := by
  induction d with
  | nil => rfl
  | cons c d ih =>
    rw [List.cons_append, spec_words_delimeter c _ (hd c (List.mem_cons_self _ _))]
    exact ih (fun x hx => hd x (List.mem_cons_of_mem _ hx))

theorem spec_words_token (token remainder : Str) (hne : token ≠ [])
    (htoken : ∀ c ∈ token, parse.is_delimeter c = false)
    (hrem : remainder = [] ∨
      ∃ c rest, remainder = c :: rest ∧ parse.is_delimeter c = true) :
    spec_words (token ++ remainder) = token :: spec_words remainder := by
  have hnot : ∀ c ∈ token, ¬ parse.is_delimeter c = true := by
    intro c hc
    rw [htoken c hc]
    decide
  have hkeep : (!token.isEmpty) = true := by
    cases token with
    | nil => exact absurd rfl hne
    | cons c t => rfl
  rcases hrem with hnil | ⟨c, rest, hcons, hc⟩
  · rw [hnil, List.append_nil]
    unfold spec_words
    rw [List.splitOnP_eq_single _ _ hnot, List.splitOnP_nil]
    simp [hkeep]
  · rw [hcons, spec_words_delimeter c rest hc]
    unfold spec_words
    rw [List.splitOnP_first _ _ hnot c hc]
    exact List.filter_cons_of_pos hkeep

theorem spec_words_none (text : Str) (h : parse.ParseWord text = none) :
    spec_words text = [] := by
  have hall : ∀ c ∈ text, parse.is_delimeter c = true := by
    intro c hc
    by_contra hcd
    obtain ⟨t, r, hs, -⟩ := parse.ParseWord_some text ⟨c, hc, by simpa using hcd⟩
    rw [hs] at h
    cases h
  have := spec_words_delimeters text [] hall
  rw [List.append_nil] at this
  rw [this]
  rfl

/-- What a successful call of `ParseWord` says about its input. -/
theorem ParseWord_result (text token remainder : Str)
    (h : parse.ParseWord text = some (token, remainder)) :
    text = text.takeWhile parse.is_delimeter ++ token ++ remainder ∧
    token ≠ [] ∧
    (∀ c ∈ token, parse.is_delimeter c = false) ∧
    (remainder = [] ∨ ∃ c rest, remainder = c :: rest ∧ parse.is_delimeter c = true) := by
  have hex : ∃ c ∈ text, parse.is_delimeter c = false := by
    by_contra hno
    push_neg at hno
    have := parse.ParseWord_all_delimeters text (fun c hc => by simpa using hno c hc)
    rw [this] at h
    cases h
  obtain ⟨t, r, hs, hsplit, hne, htok, hrem⟩ := parse.ParseWord_some text hex
  rw [hs] at h
  simp only [Option.some.injEq, Prod.mk.injEq] at h
  obtain ⟨rfl, rfl⟩ := h
  exact ⟨hsplit, hne, htok, hrem⟩

theorem ParseWord_shorter (text token remainder : Str)
    (h : parse.ParseWord text = some (token, remainder)) :
    remainder.length < text.length ∧ remainder <:+ text := by
  obtain ⟨hsplit, hne, -, -⟩ := ParseWord_result text token remainder h
  constructor
  · have hlen := congrArg List.length hsplit
    simp only [List.length_append] at hlen
    have : 0 < token.length := List.length_pos.2 hne
    omega
  · exact ⟨text.takeWhile parse.is_delimeter ++ token, hsplit.symm⟩

theorem parse_words_eq (fuel : Nat) :
    ∀ text : Str, text.length < fuel → parse_words fuel text = some (spec_words text) := by
  induction fuel with
  | zero => intro text h; exact absurd h (Nat.not_lt_zero _)
  | succ fuel ih =>
    intro text hlen
    rw [parse_words]
    have hparse : parse.parse parse.ParseWord text = parse.ParseWord text := rfl
    rw [hparse]
    rcases hres : parse.ParseWord text with _ | ⟨token, remainder⟩
    · simp only
      rw [spec_words_none text hres]
    · simp only
      obtain ⟨hsplit, hne, htok, hrem⟩ := ParseWord_result text token remainder hres
      have hshort := (ParseWord_shorter text token remainder hres).1
      rw [ih remainder (by omega)]
      simp only
      have hwords : spec_words text = token :: spec_words remainder := by
        conv_lhs => rw [hsplit]
        rw [List.append_assoc, spec_words_delimeters _ _ (fun c hc => by
          have := List.mem_takeWhile_imp hc
          simpa using this)]
        exact spec_words_token token remainder hne htok hrem
      rw [hwords]

/-- C19. When `ParseWord` returns a result, the remainder is a proper suffix of
the input: shorter than it, and ending it. Hence calling `ParseWord` again and
again on the remainder comes to an end within one call more than the input has
characters, and the tokens returned are the maximal delimiter-free substrings of
the input in their order. -/
theorem ParseWord_progress (text : Str) (fuel : Nat) (hfuel : text.length < fuel) :
    (∀ token remainder : Str,
      parse.parse parse.ParseWord text = some (token, remainder) →
        remainder.length < text.length ∧ remainder <:+ text) ∧
    parse_words fuel text = some (spec_words text) :=
  ⟨fun token remainder h => ParseWord_shorter text token remainder h,
    parse_words_eq fuel text hfuel⟩

/-- C19 at the text ` a,b;;c= `: ten calls are enough for its nine characters, and
the tokens are `a`, `b` and `c`. -/
theorem ParseWord_progress_witness :
    " a,b;;c= ".toList.length < 10 ∧
    ((∀ token remainder : Str,
      parse.parse parse.ParseWord " a,b;;c= ".toList = some (token, remainder) →
        remainder.length < " a,b;;c= ".toList.length ∧ remainder <:+ " a,b;;c= ".toList) ∧
    parse_words 10 " a,b;;c= ".toList = some (spec_words " a,b;;c= ".toList)) ∧
    parse_words 10 " a,b;;c= ".toList = some ["a".toList, "b".toList, "c".toList] ∧
    spec_words " a,b;;c= ".toList = ["a".toList, "b".toList, "c".toList] ∧
    parse.parse parse.ParseWord " a,b;;c= ".toList = some ("a".toList, ",b;;c= ".toList) :=
  ⟨by decide, ParseWord_progress " a,b;;c= ".toList 10 (by decide), by decide, by decide,
    by decide⟩

end CratchitSpec
